import Mathlib

/-!
Verification of the flam framework's core modules against their source:
`flam/features.py` (FeatureBroker), `flam/adaption.py` (Adapter),
`flam/signal.py` (Signal, Callback) and `flam/aspects.py` (AspectBase).

The embedding is shallow: the Python dict `FeatureBroker._features` becomes
an association list with unique keys, stored callbacks become the inductive
`Cb` (either a constant closure `lambda: what` or a `deferred` wrapper),
exceptions become `Except` errors, and mutation becomes explicit state
passing.
-/

set_option autoImplicit false

namespace Flam

/-- First-match lookup in an association list; the model of a Python dict
read `d[k]` (the dicts built here always have unique keys). -/
def assocFind {κ ν : Type} [DecidableEq κ] : List (κ × ν) → κ → Option ν
  | [], _ => none
  | (k', v) :: rest, k => if k' = k then some v else assocFind rest k

/-- Replace the binding of `k` (first occurrence), or append one; the model
of a Python dict write `d[k] = v`. -/
def assocUpdate {κ ν : Type} [DecidableEq κ] : List (κ × ν) → κ → ν → List (κ × ν)
  | [], k, v => [(k, v)]
  | (k', v') :: rest, k, v =>
      if k' = k then (k, v) :: rest else (k', v') :: assocUpdate rest k v

/-- Delete the binding of `k` (first occurrence); the model of `del d[k]`. -/
def assocErase {κ ν : Type} [DecidableEq κ] : List (κ × ν) → κ → List (κ × ν)
  | [], _ => []
  | (k', v') :: rest, k => if k' = k then rest else (k', v') :: assocErase rest k

/-! ## `flam/features.py` -/

/-- A stored provider callback.  `FeatureBroker._provide` stores `what`
itself when it is a `deferred` wrapper and otherwise wraps it as
`lambda: what`; `const` models the constant lambda and `defer` a
`deferred` object (whose `__call__` runs its captured callable). -/
inductive Cb (ν : Type) where
  | const : ν → Cb ν
  | defer : (Unit → ν) → Cb ν

/-- Invoke a stored callback (`result()` / `r()` in `require`). -/
def Cb.call {ν : Type} : Cb ν → ν
  | .const v => v
  | .defer f => f ()

/-- The argument `what` passed to `provide`/`append`/`extend`: either a
plain value or a `deferred(...)` wrapper. -/
inductive What (ν : Type) where
  | plain : ν → What ν
  | deferredW : (Unit → ν) → What ν

/-- The `isinstance(what, deferred)` dispatch at the top of `_provide`. -/
def What.toCb {ν : Type} : What ν → Cb ν
  | .plain v => .const v
  | .deferredW f => .defer f

/-- A value of the `_features` dict: either a bare callback, or a
`Sequence` (the marker subclass of `list`) of callbacks. -/
inductive Entry (ν : Type) where
  | single : Cb ν → Entry ν
  | seq : List (Cb ν) → Entry ν

/-- The `Sequence` classification of an entry. -/
def Entry.isSeq {ν : Type} : Entry ν → Bool
  | .single _ => false
  | .seq _ => true

/-- The feature-module errors: the two `Error(...)` raises in `_provide`
and `UnknownFeature` from `require`/`remove`. -/
inductive FError (κ : Type) where
  | redeclareSeqAsNonSeq : κ → FError κ
  | redeclare : κ → FError κ
  | unknownFeature : κ → FError κ
deriving DecidableEq

structure FeatureBroker (κ ν : Type) where
  features : List (κ × Entry ν)

namespace FeatureBroker

variable {κ ν : Type} [DecidableEq κ]

/-- `FeatureBroker.__init__`. -/
def empty (κ ν : Type) : FeatureBroker κ ν := ⟨[]⟩

/-- Dict lookup on `_features`. -/
def find (b : FeatureBroker κ ν) (k : κ) : Option (Entry ν) :=
  assocFind b.features k

/-- `FeatureBroker._provide(feature, what, sequence)`. -/
def provideRaw (b : FeatureBroker κ ν) (k : κ) (what : What ν) (sequence : Bool) :
    Except (FError κ) (FeatureBroker κ ν) :=
  let callback := what.toCb
  match assocFind b.features k with
  | some (.seq current) =>
      if sequence then
        .ok ⟨assocUpdate b.features k (.seq (current ++ [callback]))⟩
      else
        .error (.redeclareSeqAsNonSeq k)
  | some (.single _) => .error (.redeclare k)
  | none =>
      .ok ⟨b.features ++
        [(k, if sequence then Entry.seq [callback] else Entry.single callback)]⟩

/-- `FeatureBroker.provide`. -/
def provide (b : FeatureBroker κ ν) (k : κ) (what : What ν) :
    Except (FError κ) (FeatureBroker κ ν) :=
  b.provideRaw k what false

/-- `FeatureBroker.append`. -/
def append (b : FeatureBroker κ ν) (k : κ) (what : What ν) :
    Except (FError κ) (FeatureBroker κ ν) :=
  b.provideRaw k what true

/-- `FeatureBroker.extend`: `_provide` for each element in order. -/
def extend (b : FeatureBroker κ ν) (k : κ) (sequence : List (What ν)) :
    Except (FError κ) (FeatureBroker κ ν) :=
  sequence.foldlM (fun b' w => b'.provideRaw k w true) b

/-- A `require` result: a single feature value, or the list
`[r() for r in result]` for a `Sequence` entry. -/
inductive Result (ν : Type) where
  | one : ν → Result ν
  | many : List ν → Result ν

/-- `FeatureBroker.require`, instrumented: also returns the list of
callbacks this call invoked, in invocation order. -/
def requireTrace (b : FeatureBroker κ ν) (k : κ) :
    Except (FError κ) (Result ν) × List (Cb ν) :=
  match assocFind b.features k with
  | none => (.error (.unknownFeature k), [])
  | some (.single cb) => (.ok (.one cb.call), [cb])
  | some (.seq cbs) => (.ok (.many (cbs.map Cb.call)), cbs)

/-- `FeatureBroker.require`. -/
def require (b : FeatureBroker κ ν) (k : κ) : Except (FError κ) (Result ν) :=
  (b.requireTrace k).1

/-- `FeatureBroker.remove` with `element=None`: drop the feature key, or
raise `UnknownFeature` when absent. -/
def remove (b : FeatureBroker κ ν) (k : κ) :
    Except (FError κ) (FeatureBroker κ ν) :=
  match assocFind b.features k with
  | none => .error (.unknownFeature k)
  | some _ => .ok ⟨assocErase b.features k⟩

/-- Classification of a registered key: `some true` for a sequence,
`some false` for a singleton, `none` when unregistered. -/
def classOf (b : FeatureBroker κ ν) (k : κ) : Option Bool :=
  (b.find k).map Entry.isSeq

/-- Well-formedness: a Python dict has pairwise distinct keys. -/
def WF (b : FeatureBroker κ ν) : Prop := (b.features.map Prod.fst).Nodup


/-- A state-changing broker operation, for stating invariants over the
public mutating API (`require` reads the dict without writing it). -/
inductive Op (κ ν : Type) where
  | provide : κ → What ν → Op κ ν
  | append : κ → What ν → Op κ ν
  | extend : κ → List (What ν) → Op κ ν
  | remove : κ → Op κ ν

/-- Run one public mutating operation. -/
def step (b : FeatureBroker κ ν) : Op κ ν → Except (FError κ) (FeatureBroker κ ν)
  | .provide k w => b.provide k w
  | .append k w => b.append k w
  | .extend k ws => b.extend k ws
  | .remove k => b.remove k

end FeatureBroker

/-! ## `flam/adaption.py` -/

/-- The type environment the adaption module reads off the Python runtime:
`mroAttr c` is `c.mro()` when the class has an `mro` attribute (`None`
models an old-style class, where `getattr(cls, 'mro', lambda: [cls])`
falls back to `[cls]`), `objClass` is the builtin `object`, and `clsOf x`
is `x.__class__`. -/
structure TypeEnv (C O : Type) where
  mroAttr : C → Option (List C)
  objClass : C
  clsOf : O → C

/-- `getattr(cls, 'mro', lambda: [cls])()`. -/
def TypeEnv.mroList {C O : Type} (E : TypeEnv C O) (c : C) : List C :=
  (E.mroAttr c).getD [c]

/-- `Adaption(from_, to_)` wraps the pair `(from_, to_)` with pairwise
comparison and hashing, so it is the pair as a dict key. -/
def Adaption {C K : Type} (from_ : C) (to_ : K) : C × K := (from_, to_)

/-- The adaption-module errors.  `invalidAdaption` is `InvalidAdaption`;
`typeError` models the Python `TypeError` that calling the list returned
by `require` for a `Sequence` entry would raise (never reached through
the `Adapter` API, which only ever registers singletons). -/
inductive AdaptError (O K : Type) where
  | invalidAdaption : O → K → AdaptError O K
  | typeError : AdaptError O K

/-- `Adapter`: a wrapper around a `FeatureBroker` whose keys are
`Adaption` pairs and whose values are adapter callables. -/
structure Adapter (C K O : Type) where
  features : FeatureBroker (C × K) (O → O)

namespace Adapter

variable {C K O : Type} [DecidableEq C] [DecidableEq K]

/-- The `for from_type in ...` loop of `Adapter.adapt`: try
`self._features.require(Adaption(from_type, to_))(from_)` for each class,
treating `UnknownFeature` as "keep looking", and raise `InvalidAdaption`
when the loop exhausts.  (`require` can only raise `UnknownFeature`, the
one exception the loop catches.) -/
def adaptLoop (b : FeatureBroker (C × K) (O → O)) (x : O) (to_ : K) :
    List C → Except (AdaptError O K) O
  | [] => .error (.invalidAdaption x to_)
  | c :: rest =>
    match b.require (Adaption c to_) with
    | .ok (.one f) => .ok (f x)
    | .ok (.many _) => .error .typeError
    | .error _ => adaptLoop b x to_ rest

/-- `Adapter.adapt(from_, to_)`. -/
def adapt (E : TypeEnv C O) (a : Adapter C K O) (x : O) (to_ : K) :
    Except (AdaptError O K) O :=
  adaptLoop a.features x to_ (E.mroList (E.clsOf x))

/-- The inner loop of `Adapter.adapts`: `provide` the adapter under each
class of one source type's method resolution order, skipping `object`. -/
def provideHier (E : TypeEnv C O) (to_ : K) (adapter : O → O)
    (b : FeatureBroker (C × K) (O → O)) (l : List C) :
    Except (FError (C × K)) (FeatureBroker (C × K) (O → O)) :=
  l.foldlM (fun feats base =>
    if base = E.objClass then pure feats
    else feats.provide (Adaption base to_) (.plain adapter)) b

/-- `Adapter.adapts(from_, to_, adapter)`.  A non-sequence `from_` is
wrapped as `[from_]`, so the argument here is the resulting list of
source classes.  Each registration is a plain (non-`deferred`) `provide`
of the adapter callable, skipping the builtin `object`. -/
def adapts (E : TypeEnv C O) (a : Adapter C K O) (froms : List C) (to_ : K)
    (adapter : O → O) : Except (FError (C × K)) (Adapter C K O) := do
  let feats ← froms.foldlM (fun feats src =>
    provideHier E to_ adapter feats (E.mroList src)) a.features
  return ⟨feats⟩

/-- `Adapter.remove(from_, to_)`: `self._features.remove(Adaption(from_, to_))`. -/
def remove (a : Adapter C K O) (from_ : C) (to_ : K) :
    Except (FError (C × K)) (Adapter C K O) :=
  (a.features.remove (Adaption from_ to_)).map (⟨·⟩)

end Adapter

/-! ## `flam/signal.py` -/

/-- `list.remove(x)` raises `ValueError` when `x` is absent. -/
inductive SigError where
  | valueError : SigError
  | unboundCallback : SigError
deriving DecidableEq

/-- Remove the first occurrence, as `list.remove` does (callers must
check membership; `Signal.disconnect` surfaces `ValueError` otherwise). -/
def eraseFirst {F : Type} [DecidableEq F] : List F → F → List F
  | [], _ => []
  | g :: rest, f => if g = f then rest else g :: eraseFirst rest f

/-- `Signal`: an ordered list of connected callbacks. -/
structure Signal (F : Type) where
  callbacks : List F

namespace Signal

variable {F A R : Type} [DecidableEq F]

/-- `Signal.connect`: `self._callbacks.append(callback)`. -/
def connect (s : Signal F) (f : F) : Signal F := ⟨s.callbacks ++ [f]⟩

/-- `Signal.disconnect`: `self._callbacks.remove(callback)`. -/
def disconnect (s : Signal F) (f : F) : Except SigError (Signal F) :=
  if f ∈ s.callbacks then .ok ⟨eraseFirst s.callbacks f⟩
  else .error .valueError

/-- `Signal.__call__`: `[callback(*args) for callback in self._callbacks]`.
`app` applies a callback value to the call arguments. -/
def call (app : F → A → R) (s : Signal F) (a : A) : List R :=
  s.callbacks.map (fun f => app f a)

/-- A connect/disconnect history on a signal. -/
inductive SOp (F : Type) where
  | connect : F → SOp F
  | disconnect : F → SOp F

/-- Run a history of connects and disconnects left to right. -/
def runOps : Signal F → List (SOp F) → Except SigError (Signal F)
  | s, [] => .ok s
  | s, .connect f :: rest => runOps (s.connect f) rest
  | s, .disconnect f :: rest =>
    match s.disconnect f with
    | .ok s' => runOps s' rest
    | .error e => .error e

/-- The callbacks a history connects, in connection order. -/
def connectsOf : List (SOp F) → List F
  | [] => []
  | .connect f :: rest => f :: connectsOf rest
  | .disconnect _ :: rest => connectsOf rest

/-- The callbacks a history disconnects. -/
def disconnectsOf : List (SOp F) → List F
  | [] => []
  | .connect _ :: rest => disconnectsOf rest
  | .disconnect f :: rest => f :: disconnectsOf rest

end Signal

/-- `Callback`: a `Signal` subclass with `_must_be_bound`; its
`__call__` connects a function and `emit` triggers the last one. -/
structure Callback (F : Type) where
  callbacks : List F
  mustBeBound : Bool

namespace Callback

variable {F A R : Type} [DecidableEq F]

/-- `Callback.emit`: with no callbacks bound, raise `UnboundCallback`
when `_must_be_bound` else return `None` (modelled as `none`); otherwise
call `self._callbacks[-1]`. -/
def emit (app : F → A → R) (c : Callback F) (a : A) :
    Except SigError (Option R) :=
  match c.callbacks.getLast? with
  | none => if c.mustBeBound then .error .unboundCallback else .ok none
  | some f => .ok (some (app f a))

/-- Run a connect/disconnect history on the inherited callback list. -/
def runOps (c : Callback F) (ops : List (Signal.SOp F)) :
    Except SigError (Callback F) :=
  (Signal.runOps ⟨c.callbacks⟩ ops).map fun s => ⟨s.callbacks, c.mustBeBound⟩

end Callback

/-! ## `flam/aspects.py` -/

/-- An attribute value as the aspect machinery distinguishes them:
`callable(next)` picks the `fn` branch, everything else is `val`. -/
inductive Attr (A V : Type) where
  | val : V → Attr A V
  | fn : (A → V) → Attr A V

/-- `getattr(self.next, key)` raises `AttributeError` on a miss. -/
inductive AttrError where
  | attributeError : AttrError
deriving DecidableEq

/-- The wrapped object, as a map from attribute names to the attributes
ordinary Python lookup finds on it (`none` = lookup raises). -/
structure PyObj (N A V : Type) where
  attrs : N → Option (Attr A V)

/-- An `AspectBase` instance: `defines` are the names ordinary lookup
resolves on the aspect itself (its class methods and instance `__dict__`,
including `next`); only the remaining names reach `__getattr__`. -/
structure AspectObj (N A V : Type) where
  defines : N → Option (Attr A V)
  next : PyObj N A V

/-- `AspectBase.__callnext__` (the default hook): `_method(*args, **kwargs)`. -/
def callnext {A V : Type} (method : A → V) (a : A) : V := method a

/-- Attribute read on an aspect: Python first resolves names the aspect
itself defines; only on a miss does `AspectBase.__getattr__` run, which
fetches the attribute from `self.next`, wrapping a callable one in
`proxy_next_method` (which routes the call through `__callnext__`). -/
def AspectObj.getattr {N A V : Type} (asp : AspectObj N A V) (key : N) :
    Except AttrError (Attr A V) :=
  match asp.defines key with
  | some attr => .ok attr
  | none =>
    match asp.next.attrs key with
    | none => .error .attributeError
    | some (.fn g) => .ok (.fn (fun a => callnext g a))
    | some (.val v) => .ok (.val v)

/-! ## Helper lemmas -/

@[simp] theorem assocFind_nil {κ ν : Type} [DecidableEq κ] (k : κ) :
    assocFind ([] : List (κ × ν)) k = none := rfl

theorem assocFind_cons {κ ν : Type} [DecidableEq κ] (k' : κ) (v : ν)
    (rest : List (κ × ν)) (k : κ) :
    assocFind ((k', v) :: rest) k =
      if k' = k then some v else assocFind rest k := rfl

theorem assocFind_append_right {κ ν : Type} [DecidableEq κ]
    {l₁ : List (κ × ν)} {k : κ} (l₂ : List (κ × ν))
    (h : assocFind l₁ k = none) :
    assocFind (l₁ ++ l₂) k = assocFind l₂ k := by
  induction l₁ with
  | nil => simp
  | cons p rest ih =>
    obtain ⟨k', v⟩ := p
    by_cases hk : k' = k
    · simp [assocFind, hk] at h
    · simp only [assocFind, if_neg hk] at h
      simpa [assocFind, hk] using ih h

theorem assocFind_append_left {κ ν : Type} [DecidableEq κ]
    {l₁ : List (κ × ν)} {k : κ} {v : ν} (l₂ : List (κ × ν))
    (h : assocFind l₁ k = some v) :
    assocFind (l₁ ++ l₂) k = some v := by
  induction l₁ with
  | nil => simp [assocFind] at h
  | cons p rest ih =>
    obtain ⟨k', v'⟩ := p
    by_cases hk : k' = k
    · simp only [assocFind, if_pos hk] at h
      simp [assocFind, hk, h]
    · simp only [assocFind, if_neg hk] at h
      simpa [assocFind, hk] using ih h

theorem assocFind_eq_none_iff {κ ν : Type} [DecidableEq κ]
    {l : List (κ × ν)} {k : κ} :
    assocFind l k = none ↔ k ∉ l.map Prod.fst := by
  induction l with
  | nil => simp
  | cons p rest ih =>
    obtain ⟨k', v'⟩ := p
    by_cases hk : k' = k
    · subst hk; simp [assocFind]
    · have hk' : ¬ k = k' := fun h => hk h.symm
      simp only [assocFind, if_neg hk, List.map_cons, List.mem_cons, not_or]
      rw [ih]
      tauto

theorem assocUpdate_keys {κ ν : Type} [DecidableEq κ]
    {l : List (κ × ν)} {k : κ} {w : ν} (v : ν)
    (h : assocFind l k = some w) :
    (assocUpdate l k v).map Prod.fst = l.map Prod.fst := by
  induction l with
  | nil => simp [assocFind] at h
  | cons p rest ih =>
    obtain ⟨k', v'⟩ := p
    by_cases hk : k' = k
    · simp [assocUpdate, hk]
    · simp only [assocFind, if_neg hk] at h
      simp [assocUpdate, hk, ih h]

theorem assocErase_keys_sublist {κ ν : Type} [DecidableEq κ]
    (l : List (κ × ν)) (k : κ) :
    ((assocErase l k).map Prod.fst).Sublist (l.map Prod.fst) := by
  induction l with
  | nil => simp [assocErase]
  | cons p rest ih =>
    obtain ⟨k', v'⟩ := p
    by_cases hk : k' = k
    · simp [assocErase, hk, List.sublist_cons_self]
    · simpa [assocErase, hk] using ih.cons₂ k'

theorem assocFind_update_self {κ ν : Type} [DecidableEq κ]
    (l : List (κ × ν)) (k : κ) (v : ν) :
    assocFind (assocUpdate l k v) k = some v := by
  induction l with
  | nil => simp [assocUpdate, assocFind]
  | cons p rest ih =>
    obtain ⟨k', v'⟩ := p
    by_cases h : k' = k <;> simp [assocUpdate, assocFind, h, ih]

theorem assocFind_update_other {κ ν : Type} [DecidableEq κ]
    (l : List (κ × ν)) (k k₂ : κ) (v : ν) (hne : k₂ ≠ k) :
    assocFind (assocUpdate l k v) k₂ = assocFind l k₂ := by
  have hne' : k ≠ k₂ := hne.symm
  induction l with
  | nil => simp [assocUpdate, assocFind, hne']
  | cons p rest ih =>
    obtain ⟨k', v'⟩ := p
    by_cases h : k' = k
    · subst h
      simp [assocUpdate, assocFind, hne']
    · by_cases h₂ : k' = k₂ <;>
        simp [assocUpdate, assocFind, h, h₂, hne, ih]

theorem assocFind_erase_self {κ ν : Type} [DecidableEq κ]
    (l : List (κ × ν)) (k : κ)
    (huniq : (l.map Prod.fst).Nodup) :
    assocFind (assocErase l k) k = none := by
  induction l with
  | nil => simp [assocErase]
  | cons p rest ih =>
    obtain ⟨k', v'⟩ := p
    simp only [List.map_cons, List.nodup_cons] at huniq
    by_cases h : k' = k
    · subst h
      rcases hfind : assocFind rest k' with _ | w
      · simpa [assocErase] using hfind
      · exfalso
        -- a successful find means the key occurs among the tail's keys
        have : k' ∈ rest.map Prod.fst := by
          clear ih huniq
          induction rest with
          | nil => simp [assocFind] at hfind
          | cons q rest₂ ih₂ =>
            obtain ⟨k₂, v₂⟩ := q
            by_cases h₂ : k₂ = k'
            · subst h₂; simp
            · simp only [assocFind, if_neg h₂] at hfind
              simpa using Or.inr (ih₂ hfind)
        exact huniq.1 this
    · simp [assocErase, h, assocFind, ih huniq.2]

theorem assocFind_erase_other {κ ν : Type} [DecidableEq κ]
    (l : List (κ × ν)) (k k₂ : κ) (hne : k₂ ≠ k) :
    assocFind (assocErase l k) k₂ = assocFind l k₂ := by
  have hne' : k ≠ k₂ := hne.symm
  induction l with
  | nil => simp [assocErase]
  | cons p rest ih =>
    obtain ⟨k', v'⟩ := p
    by_cases h : k' = k
    · subst h
      simp [assocErase, assocFind, hne']
    · by_cases h₂ : k' = k₂ <;>
        simp [assocErase, assocFind, h, h₂, hne, ih]


namespace FeatureBroker

variable {κ ν : Type} [DecidableEq κ]

theorem provideRaw_of_fresh {b : FeatureBroker κ ν} {k : κ} (w : What ν) (s : Bool)
    (h : b.find k = none) :
    b.provideRaw k w s = .ok ⟨b.features ++
      [(k, if s then Entry.seq [w.toCb] else Entry.single w.toCb)]⟩ := by
  unfold provideRaw
  rw [show assocFind b.features k = none from h]

theorem provideRaw_of_single {b : FeatureBroker κ ν} {k : κ} {cb : Cb ν}
    (w : What ν) (s : Bool) (h : b.find k = some (.single cb)) :
    b.provideRaw k w s = .error (.redeclare k) := by
  unfold provideRaw
  rw [show assocFind b.features k = some (.single cb) from h]

theorem provideRaw_of_seq_true {b : FeatureBroker κ ν} {k : κ} {cur : List (Cb ν)}
    (w : What ν) (h : b.find k = some (.seq cur)) :
    b.provideRaw k w true =
      .ok ⟨assocUpdate b.features k (.seq (cur ++ [w.toCb]))⟩ := by
  unfold provideRaw
  rw [show assocFind b.features k = some (.seq cur) from h]
  rfl

theorem provideRaw_of_seq_false {b : FeatureBroker κ ν} {k : κ} {cur : List (Cb ν)}
    (w : What ν) (h : b.find k = some (.seq cur)) :
    b.provideRaw k w false = .error (.redeclareSeqAsNonSeq k) := by
  unfold provideRaw
  rw [show assocFind b.features k = some (.seq cur) from h]
  rfl

/-- `_provide` never touches any key other than its own. -/
theorem provideRaw_ok_find_other {b b' : FeatureBroker κ ν} {k : κ}
    {w : What ν} {s : Bool} (h : b.provideRaw k w s = .ok b')
    {k₂ : κ} (hne : k₂ ≠ k) : b'.find k₂ = b.find k₂ := by
  have hk : k ≠ k₂ := hne.symm
  rcases hfind : b.find k with _ | e
  · rw [provideRaw_of_fresh w s hfind] at h
    cases h
    rcases hfind₂ : assocFind b.features k₂ with _ | v
    · rw [find, assocFind_append_right _ hfind₂]
      simp [find, assocFind, hk, hfind₂]
    · rw [find, assocFind_append_left _ hfind₂, find, hfind₂]
  · cases e with
    | single cb => rw [provideRaw_of_single w s hfind] at h; cases h
    | seq cur =>
      cases s with
      | false => rw [provideRaw_of_seq_false w hfind] at h; cases h
      | true =>
        rw [provideRaw_of_seq_true w hfind] at h
        cases h
        exact assocFind_update_other b.features k k₂ _ hne

/-- What `_provide` leaves at its own key on success. -/
theorem provideRaw_ok_find_self {b b' : FeatureBroker κ ν} {k : κ}
    {w : What ν} {s : Bool} (h : b.provideRaw k w s = .ok b') :
    (b.find k = none ∧
      b'.find k = some (if s then Entry.seq [w.toCb] else Entry.single w.toCb)) ∨
    (∃ cur, b.find k = some (.seq cur) ∧ s = true ∧
      b'.find k = some (.seq (cur ++ [w.toCb]))) := by
  rcases hfind : b.find k with _ | e
  · left
    rw [provideRaw_of_fresh w s hfind] at h
    cases h
    have hafter : assocFind (b.features ++
        [(k, if s then Entry.seq [w.toCb] else Entry.single w.toCb)]) k =
        some (if s then Entry.seq [w.toCb] else Entry.single w.toCb) := by
      rw [assocFind_append_right _ hfind]
      simp [assocFind]
    exact ⟨rfl, hafter⟩
  · cases e with
    | single cb => rw [provideRaw_of_single w s hfind] at h; cases h
    | seq cur =>
      cases s with
      | false => rw [provideRaw_of_seq_false w hfind] at h; cases h
      | true =>
        right
        rw [provideRaw_of_seq_true w hfind] at h
        cases h
        exact ⟨cur, rfl, rfl, assocFind_update_self b.features k _⟩

theorem provideRaw_ok_WF {b b' : FeatureBroker κ ν} {k : κ}
    {w : What ν} {s : Bool} (hwf : b.WF) (h : b.provideRaw k w s = .ok b') :
    b'.WF := by
  rcases hfind : b.find k with _ | e
  · rw [provideRaw_of_fresh w s hfind] at h
    cases h
    have hk : k ∉ b.features.map Prod.fst := assocFind_eq_none_iff.mp hfind
    unfold WF at hwf ⊢
    simp only [List.map_append, List.map_cons, List.map_nil]
    rw [List.nodup_append]
    refine ⟨hwf, List.nodup_singleton k, ?_⟩
    intro a ha hb
    simp only [List.mem_singleton] at hb
    subst hb
    exact hk ha
  · cases e with
    | single cb => rw [provideRaw_of_single w s hfind] at h; cases h
    | seq cur =>
      cases s with
      | false => rw [provideRaw_of_seq_false w hfind] at h; cases h
      | true =>
        rw [provideRaw_of_seq_true w hfind] at h
        cases h
        simpa [WF, assocUpdate_keys _ hfind] using hwf

/-- `_provide` preserves the singleton/sequence classification of every
key that already has one. -/
theorem provideRaw_ok_classOf {b b' : FeatureBroker κ ν} {k : κ}
    {w : What ν} {s : Bool} (h : b.provideRaw k w s = .ok b')
    {k₂ : κ} {c : Bool} (hc : b.classOf k₂ = some c) :
    b'.classOf k₂ = some c := by
  by_cases hk : k₂ = k
  · subst hk
    rcases provideRaw_ok_find_self h with ⟨hnone, _⟩ | ⟨cur, hseq, hs, hafter⟩
    · rw [classOf, hnone] at hc; cases hc
    · rw [classOf, hseq] at hc
      rw [classOf, hafter]
      simpa [Entry.isSeq] using hc
  · rw [classOf, provideRaw_ok_find_other h hk, ← classOf]
    exact hc

theorem extend_ok_classOf {b b' : FeatureBroker κ ν} {k : κ}
    {ws : List (What ν)} (h : b.extend k ws = .ok b')
    {k₂ : κ} {c : Bool} (hc : b.classOf k₂ = some c) :
    b'.classOf k₂ = some c := by
  induction ws generalizing b with
  | nil =>
    simp only [extend, List.foldlM_nil] at h
    cases h
    exact hc
  | cons w rest ih =>
    simp only [extend, List.foldlM_cons] at h
    rcases hstep : b.provideRaw k w true with e | b₂
    · rw [hstep] at h; cases h
    · rw [hstep] at h
      exact ih (b := b₂) h (provideRaw_ok_classOf hstep hc)

theorem extend_ok_WF {b b' : FeatureBroker κ ν} {k : κ}
    {ws : List (What ν)} (hwf : b.WF) (h : b.extend k ws = .ok b') :
    b'.WF := by
  induction ws generalizing b with
  | nil =>
    simp only [extend, List.foldlM_nil] at h
    cases h
    exact hwf
  | cons w rest ih =>
    simp only [extend, List.foldlM_cons] at h
    rcases hstep : b.provideRaw k w true with e | b₂
    · rw [hstep] at h; cases h
    · rw [hstep] at h
      exact ih (provideRaw_ok_WF hwf hstep) h

theorem remove_ok_find {b b' : FeatureBroker κ ν} {k : κ}
    (hwf : b.WF) (h : b.remove k = .ok b') :
    b'.find k = none ∧ ∀ k₂, k₂ ≠ k → b'.find k₂ = b.find k₂ := by
  unfold remove at h
  rcases hfind : assocFind b.features k with _ | e
  · rw [hfind] at h; cases h
  · rw [hfind] at h
    cases h
    exact ⟨assocFind_erase_self b.features k hwf,
      fun k₂ hne => assocFind_erase_other b.features k k₂ hne⟩

/-- Appending a list of providers to an existing sequence key succeeds and
extends the stored `Sequence` in order. -/
theorem appendAll_from_seq {b : FeatureBroker κ ν} {k : κ} {cur : List (Cb ν)}
    (ws : List (What ν)) (h : b.find k = some (.seq cur)) :
    ∃ b', ws.foldlM (fun b'' w => b''.append k w) b = .ok b' ∧
      b'.find k = some (.seq (cur ++ ws.map What.toCb)) := by
  induction ws generalizing b cur with
  | nil => exact ⟨b, rfl, by simpa using h⟩
  | cons w rest ih =>
    have hstep : b.append k w =
        .ok ⟨assocUpdate b.features k (.seq (cur ++ [w.toCb]))⟩ :=
      provideRaw_of_seq_true w h
    have hfind' : (⟨assocUpdate b.features k (.seq (cur ++ [w.toCb]))⟩ :
        FeatureBroker κ ν).find k = some (.seq (cur ++ [w.toCb])) := by
      simpa [find] using assocFind_update_self b.features k _
    obtain ⟨b', hfold, hfind⟩ := ih hfind'
    refine ⟨b', ?_, ?_⟩
    · rw [List.foldlM_cons, hstep]
      exact hfold
    · simpa [List.append_assoc] using hfind

end FeatureBroker

/-! ## Claim theorems -/

/-- Claim C2: for every FeatureBroker, a registered key's classification as
singleton or sequence never changes while it stays registered: any
registration under an existing singleton key raises `Error`, a non-sequence
registration under an existing sequence key raises `Error`, a sequence
registration under an existing sequence key appends a provider and keeps
the key a sequence, and every public mutating operation either removes a
key or preserves its classification. -/
theorem claim_C2_classification_invariant {κ ν : Type} [DecidableEq κ]
    (b : FeatureBroker κ ν) (hwf : b.WF) (k : κ) :
    (b.classOf k = some false →
      ∀ (w : What ν) (s : Bool), ∃ e, b.provideRaw k w s = .error e) ∧
    (b.classOf k = some true →
      ∀ w : What ν, b.provideRaw k w false = .error (.redeclareSeqAsNonSeq k)) ∧
    (b.classOf k = some true →
      ∀ w : What ν, ∃ b', b.provideRaw k w true = .ok b' ∧
        b'.classOf k = some true) ∧
    (∀ (op : FeatureBroker.Op κ ν) (b' : FeatureBroker κ ν),
      b.step op = .ok b' →
      ∀ (k₂ : κ) (c : Bool), b.classOf k₂ = some c →
        b'.classOf k₂ = none ∨ b'.classOf k₂ = some c) := by
  refine ⟨?_, ?_, ?_, ?_⟩
  · intro hc w s
    obtain ⟨cb, hfind⟩ : ∃ cb, b.find k = some (.single cb) := by
      rcases hfind : b.find k with _ | e
      · rw [FeatureBroker.classOf, hfind] at hc; cases hc
      · cases e with
        | single cb => exact ⟨cb, rfl⟩
        | seq cur =>
          rw [FeatureBroker.classOf, hfind] at hc
          simp [Entry.isSeq] at hc
    exact ⟨.redeclare k, FeatureBroker.provideRaw_of_single w s hfind⟩
  · intro hc w
    obtain ⟨cur, hfind⟩ : ∃ cur, b.find k = some (.seq cur) := by
      rcases hfind : b.find k with _ | e
      · rw [FeatureBroker.classOf, hfind] at hc; cases hc
      · cases e with
        | single cb =>
          rw [FeatureBroker.classOf, hfind] at hc
          simp [Entry.isSeq] at hc
        | seq cur => exact ⟨cur, rfl⟩
    exact FeatureBroker.provideRaw_of_seq_false w hfind
  · intro hc w
    obtain ⟨cur, hfind⟩ : ∃ cur, b.find k = some (.seq cur) := by
      rcases hfind : b.find k with _ | e
      · rw [FeatureBroker.classOf, hfind] at hc; cases hc
      · cases e with
        | single cb =>
          rw [FeatureBroker.classOf, hfind] at hc
          simp [Entry.isSeq] at hc
        | seq cur => exact ⟨cur, rfl⟩
    refine ⟨_, FeatureBroker.provideRaw_of_seq_true w hfind, ?_⟩
    rw [FeatureBroker.classOf, FeatureBroker.find,
      assocFind_update_self b.features k _]
    rfl
  · intro op b' hstep k₂ c hc
    cases op with
    | provide k₃ w =>
      exact Or.inr (FeatureBroker.provideRaw_ok_classOf hstep hc)
    | append k₃ w =>
      exact Or.inr (FeatureBroker.provideRaw_ok_classOf hstep hc)
    | extend k₃ ws =>
      exact Or.inr (FeatureBroker.extend_ok_classOf hstep hc)
    | remove k₃ =>
      obtain ⟨hself, hother⟩ := FeatureBroker.remove_ok_find hwf hstep
      by_cases hk : k₂ = k₃
      · subst hk
        exact Or.inl (by rw [FeatureBroker.classOf, hself]; rfl)
      · exact Or.inr (by rw [FeatureBroker.classOf, hother k₂ hk, ← FeatureBroker.classOf]; exact hc)

/-- Evaluation of claim C2's theorem at a broker holding a sequence key. -/
theorem claim_C2_witness :
    (⟨[(0, Entry.seq [Cb.const 2])]⟩ : FeatureBroker Nat Nat).provideRaw 0
      (.plain 5) false = .error (.redeclareSeqAsNonSeq 0) :=
  (claim_C2_classification_invariant ⟨[(0, Entry.seq [Cb.const 2])]⟩
    (by unfold FeatureBroker.WF; decide) 0).2.1
    (by simp [FeatureBroker.classOf, FeatureBroker.find, assocFind, Entry.isSeq])
    (.plain 5)

/-- Claim C4: for a sequence feature key built by appending providers in
order, `require` invokes each registered provider exactly once at the time
of the call (the trace lists them in order) and returns the list of their
results in registration order. -/
theorem claim_C4_require_sequence_order {κ ν : Type} [DecidableEq κ]
    (b : FeatureBroker κ ν) (k : κ) (w : What ν) (ws : List (What ν))
    (h : b.find k = none) :
    ∃ b', (w :: ws).foldlM (fun b'' w' => b''.append k w') b = .ok b' ∧
      b'.requireTrace k =
        (.ok (.many ((w :: ws).map (fun w' => w'.toCb.call))),
          (w :: ws).map What.toCb) := by
  have h1 : b.append k w = .ok ⟨b.features ++ [(k, Entry.seq [w.toCb])]⟩ := by
    simpa using FeatureBroker.provideRaw_of_fresh w true h
  have hfind₁ : (⟨b.features ++ [(k, Entry.seq [w.toCb])]⟩ :
      FeatureBroker κ ν).find k = some (.seq [w.toCb]) := by
    rw [FeatureBroker.find, assocFind_append_right _ h]
    simp [assocFind]
  obtain ⟨b', hfold, hfind⟩ := FeatureBroker.appendAll_from_seq ws hfind₁
  refine ⟨b', ?_, ?_⟩
  · rw [List.foldlM_cons, h1]
    exact hfold
  · rw [FeatureBroker.requireTrace,
      show assocFind b'.features k = some (.seq ([w.toCb] ++ ws.map What.toCb))
        from hfind]
    simp [List.map_map, Function.comp]

/-- Evaluation of claim C4's theorem: two appended providers are returned
in order. -/
theorem claim_C4_witness :
    ∃ b', ([What.plain 10, What.plain 20].foldlM
        (fun b'' w' => b''.append 0 w') (FeatureBroker.empty Nat Nat)) = .ok b' ∧
      b'.requireTrace 0 =
        (.ok (.many ([What.plain 10, What.plain 20].map
            (fun w' => w'.toCb.call))),
          [What.plain 10, What.plain 20].map What.toCb) :=
  claim_C4_require_sequence_order (FeatureBroker.empty Nat Nat) 0
    (.plain 10) [.plain 20] rfl

/-- Claim C5: `require` raises `UnknownFeature` exactly when the key is
not registered; a registered key always yields a value, and the only
error `require` can produce is `UnknownFeature` for the requested key. -/
theorem claim_C5_require_unknown_iff {κ ν : Type} [DecidableEq κ]
    (b : FeatureBroker κ ν) (k : κ) :
    (b.require k = .error (.unknownFeature k) ↔ b.find k = none) ∧
    (∀ e, b.require k = .error e → e = .unknownFeature k) ∧
    (b.find k ≠ none → ∃ r, b.require k = .ok r) := by
  rcases hfind : b.find k with _ | e
  · have hreq : b.require k = .error (.unknownFeature k) := by
      rw [FeatureBroker.require, FeatureBroker.requireTrace,
        show assocFind b.features k = none from hfind]
    exact ⟨⟨fun _ => rfl, fun _ => hreq⟩,
      fun e he => by rw [hreq] at he; cases he; rfl,
      fun hne => absurd rfl hne⟩
  · obtain ⟨r, hr⟩ : ∃ r, b.require k = .ok r := by
      cases e with
      | single cb =>
        exact ⟨.one cb.call, by
          rw [FeatureBroker.require, FeatureBroker.requireTrace,
            show assocFind b.features k = some (.single cb) from hfind]⟩
      | seq cbs =>
        exact ⟨.many (cbs.map Cb.call), by
          rw [FeatureBroker.require, FeatureBroker.requireTrace,
            show assocFind b.features k = some (.seq cbs) from hfind]⟩
    refine ⟨⟨fun hcontra => ?_, fun hcontra => ?_⟩,
      fun e' he' => ?_, fun _ => ⟨r, hr⟩⟩
    · rw [hr] at hcontra; cases hcontra
    · cases hcontra
    · rw [hr] at he'; cases he'

/-- Evaluation of claim C5's theorem at the empty broker. -/
theorem claim_C5_witness :
    (FeatureBroker.empty Nat Nat).require 0 = .error (.unknownFeature 0) :=
  (claim_C5_require_unknown_iff (FeatureBroker.empty Nat Nat) 0).1.mpr rfl

/-- Claim C6: providing a plain (non-`deferred`) value under a fresh key
and then requiring that key returns exactly the value. -/
theorem claim_C6_provide_require_roundtrip {κ ν : Type} [DecidableEq κ]
    (b : FeatureBroker κ ν) (k : κ) (v : ν) (h : b.find k = none) :
    ∃ b', b.provide k (.plain v) = .ok b' ∧ b'.require k = .ok (.one v) := by
  have h1 : b.provide k (.plain v) =
      .ok ⟨b.features ++ [(k, Entry.single (Cb.const v))]⟩ := by
    simpa using FeatureBroker.provideRaw_of_fresh (What.plain v) false h
  refine ⟨_, h1, ?_⟩
  have hfind : assocFind (b.features ++ [(k, Entry.single (Cb.const v))]) k =
      some (Entry.single (Cb.const v)) := by
    rw [assocFind_append_right _ h]
    simp [assocFind]
  rw [FeatureBroker.require, FeatureBroker.requireTrace, hfind]
  rfl

/-- Evaluation of claim C6's theorem at the empty broker. -/
theorem claim_C6_witness :
    ∃ b', (FeatureBroker.empty Nat Nat).provide 0 (.plain 7) = .ok b' ∧
      b'.require 0 = .ok (.one 7) :=
  claim_C6_provide_require_roundtrip (FeatureBroker.empty Nat Nat) 0 7 rfl

namespace Adapter

variable {C K O : Type} [DecidableEq C] [DecidableEq K]

/-- A registered singleton at the head class stops the walk: the adapter
is invoked on the object. -/
theorem adaptLoop_found {b : FeatureBroker (C × K) (O → O)} {x : O} {to_ : K}
    {c : C} {cb : Cb (O → O)} (rest : List C)
    (h : b.find (Adaption c to_) = some (.single cb)) :
    adaptLoop b x to_ (c :: rest) = .ok (cb.call x) := by
  have hreq : b.require (Adaption c to_) = .ok (.one cb.call) := by
    rw [FeatureBroker.require, FeatureBroker.requireTrace,
      show assocFind b.features (Adaption c to_) = some (.single cb) from h]
  simp [adaptLoop, hreq]

/-- An unregistered head class is skipped: `UnknownFeature` is caught and
the walk continues with the remaining classes. -/
theorem adaptLoop_miss {b : FeatureBroker (C × K) (O → O)} {x : O} {to_ : K}
    {c : C} (rest : List C) (h : b.find (Adaption c to_) = none) :
    adaptLoop b x to_ (c :: rest) = adaptLoop b x to_ rest := by
  have hreq : b.require (Adaption c to_) =
      .error (.unknownFeature (Adaption c to_)) := by
    rw [FeatureBroker.require, FeatureBroker.requireTrace,
      show assocFind b.features (Adaption c to_) = none from h]
  simp [adaptLoop, hreq]

/-- When no class of the walked list is registered the loop exhausts and
raises `InvalidAdaption`. -/
theorem adaptLoop_all_miss {b : FeatureBroker (C × K) (O → O)} {x : O}
    {to_ : K} (l : List C)
    (h : ∀ c ∈ l, b.find (Adaption c to_) = none) :
    adaptLoop b x to_ l = .error (.invalidAdaption x to_) := by
  induction l with
  | nil => rfl
  | cons c rest ih =>
    rw [adaptLoop_miss rest (h c (List.mem_cons_self c rest))]
    exact ih fun c' h' => h c' (List.mem_cons_of_mem _ h')

end Adapter

/-- Claim C1: `Adapter.adapt` walks the classes of the object's method
resolution order in order, querying the feature registry at the
`(class, to)` adaption key at each step, and returns the result of
applying the first registered adapter to the object — so an adapter
registered for an ancestor is used whenever no earlier (more derived)
class in the order has one. -/
theorem claim_C1_adapt_walks_mro {C K O : Type} [DecidableEq C] [DecidableEq K]
    (E : TypeEnv C O) (a : Adapter C K O) (x : O) (to_ : K)
    (pre post : List C) (c : C) (cb : Cb (O → O))
    (hmro : E.mroList (E.clsOf x) = pre ++ c :: post)
    (hpre : ∀ c' ∈ pre, a.features.find (Adaption c' to_) = none)
    (hc : a.features.find (Adaption c to_) = some (.single cb)) :
    a.adapt E x to_ = .ok (cb.call x) := by
  rw [Adapter.adapt, hmro]
  clear hmro
  induction pre with
  | nil => simpa using Adapter.adaptLoop_found post hc
  | cons c' pre' ih =>
    rw [List.cons_append,
      Adapter.adaptLoop_miss _ (hpre c' (List.mem_cons_self c' pre'))]
    exact ih fun c'' h'' => hpre c'' (List.mem_cons_of_mem _ h'')

/-- Evaluation of claim C1's theorem: class 2 has method resolution order
`[2, 1, 0]`, an adapter is registered for ancestor 1 only, and adapting an
object of class 2 applies it. -/
theorem claim_C1_witness :
    Adapter.adapt
      (⟨fun c => if c = 2 then some [2, 1, 0] else none, 0, fun _ => 2⟩ :
        TypeEnv Nat Nat)
      (⟨⟨[(Adaption 1 5, Entry.single (Cb.const (fun o => o + 1)))]⟩⟩ :
        Adapter Nat Nat Nat)
      3 5 = .ok ((Cb.const (fun o : Nat => o + 1)).call 3) :=
  claim_C1_adapt_walks_mro
    ⟨fun c => if c = 2 then some [2, 1, 0] else none, 0, fun _ => 2⟩
    ⟨⟨[(Adaption 1 5, Entry.single (Cb.const (fun o => o + 1)))]⟩⟩
    3 5 [2] [0] 1 (Cb.const (fun o => o + 1)) rfl
    (by
      intro c' hc'
      simp only [List.mem_singleton] at hc'
      subst hc'
      rfl)
    rfl

/-- Claim C3: when no class in the object's method resolution order has a
registered adapter for the destination key, `Adapter.adapt` fails with
exactly `InvalidAdaption` (the embedding of `adapt` is a pure function of
the registry — the source only reads the dict — so the registry is
unchanged by the failed call). -/
theorem claim_C3_adapt_invalid_adaption {C K O : Type}
    [DecidableEq C] [DecidableEq K]
    (E : TypeEnv C O) (a : Adapter C K O) (x : O) (to_ : K)
    (h : ∀ c ∈ E.mroList (E.clsOf x), a.features.find (Adaption c to_) = none) :
    a.adapt E x to_ = .error (.invalidAdaption x to_) := by
  rw [Adapter.adapt]
  exact Adapter.adaptLoop_all_miss _ h

/-- Evaluation of claim C3's theorem at an empty adapter registry. -/
theorem claim_C3_witness :
    Adapter.adapt
      (⟨fun c => if c = 2 then some [2, 1, 0] else none, 0, fun _ => 2⟩ :
        TypeEnv Nat Nat)
      (⟨⟨[]⟩⟩ : Adapter Nat Nat Nat) 3 5 = .error (.invalidAdaption 3 5) :=
  claim_C3_adapt_invalid_adaption
    ⟨fun c => if c = 2 then some [2, 1, 0] else none, 0, fun _ => 2⟩
    ⟨⟨[]⟩⟩ 3 5 (fun _ _ => rfl)

namespace Adapter

variable {C K O : Type} [DecidableEq C] [DecidableEq K]

/-- Registering down a list of all-fresh classes succeeds and installs the
adapter under exactly the non-`object` classes of the list. -/
theorem provideHier_fresh {E : TypeEnv C O} (to_ : K) (f : O → O)
    (l : List C) (b : FeatureBroker (C × K) (O → O))
    (hnodup : l.Nodup)
    (hfresh : ∀ T ∈ l, T ≠ E.objClass → b.find (Adaption T to_) = none) :
    ∃ b', provideHier E to_ f b l = .ok b' ∧
      (∀ T ∈ l, T ≠ E.objClass →
        b'.find (Adaption T to_) = some (.single (.const f))) ∧
      (∀ key : C × K, (key.1 ∉ l ∨ key.1 = E.objClass ∨ key.2 ≠ to_) →
        b'.find key = b.find key) ∧
      (b.WF → b'.WF) := by
  induction l generalizing b with
  | nil => exact ⟨b, rfl, by simp, fun _ _ => rfl, id⟩
  | cons T rest ih =>
    have hTrest : T ∉ rest := (List.nodup_cons.mp hnodup).1
    by_cases hT : T = E.objClass
    · obtain ⟨b', hfold, hreg, hunch, hwf⟩ := ih b (List.Nodup.of_cons hnodup)
        (fun T' h h2 => hfresh T' (List.mem_cons_of_mem _ h) h2)
      refine ⟨b', ?_, ?_, ?_, hwf⟩
      · rw [provideHier, List.foldlM_cons, if_pos hT]
        exact hfold
      · intro T' hmem hne
        rcases List.mem_cons.mp hmem with rfl | hmem'
        · exact absurd hT hne
        · exact hreg T' hmem' hne
      · intro key hkey
        apply hunch
        rcases hkey with h1 | h2 | h3
        · exact Or.inl fun hm => h1 (List.mem_cons_of_mem _ hm)
        · exact Or.inr (Or.inl h2)
        · exact Or.inr (Or.inr h3)
    · have hfind : b.find (Adaption T to_) = none :=
        hfresh T (List.mem_cons_self T rest) hT
      have hprov : b.provide (Adaption T to_) (.plain f) =
          .ok ⟨b.features ++ [(Adaption T to_, Entry.single (Cb.const f))]⟩ := by
        simpa using FeatureBroker.provideRaw_of_fresh (What.plain f) false hfind
      have hself : (⟨b.features ++ [(Adaption T to_, Entry.single (Cb.const f))]⟩ :
          FeatureBroker (C × K) (O → O)).find (Adaption T to_) =
          some (.single (.const f)) := by
        rcases FeatureBroker.provideRaw_ok_find_self hprov with ⟨_, h2⟩ | ⟨cur, hx, _, _⟩
        · simpa using h2
        · rw [hfind] at hx; cases hx
      obtain ⟨b', hfold, hreg, hunch, hwf⟩ :=
        ih ⟨b.features ++ [(Adaption T to_, Entry.single (Cb.const f))]⟩
          (List.Nodup.of_cons hnodup)
          (fun T' h h2 => by
            have hne : (Adaption T' to_ : C × K) ≠ Adaption T to_ := by
              intro hp
              have hTT : T' = T := congrArg Prod.fst hp
              exact hTrest (hTT ▸ h)
            rw [FeatureBroker.provideRaw_ok_find_other hprov hne]
            exact hfresh T' (List.mem_cons_of_mem _ h) h2)
      refine ⟨b', ?_, ?_, ?_, ?_⟩
      · rw [provideHier, List.foldlM_cons, if_neg hT, hprov]
        exact hfold
      · intro T' hmem hne
        rcases List.mem_cons.mp hmem with rfl | hmem'
        · rw [hunch (Adaption T' to_) (Or.inl hTrest)]
          exact hself
        · exact hreg T' hmem' hne
      · intro key hkey
        have hne : key ≠ Adaption T to_ := by
          intro hp
          rcases hkey with h1 | h2 | h3
          · exact h1 (hp ▸ List.mem_cons_self T rest)
          · exact hT ((hp ▸ h2 : (Adaption T to_ : C × K).1 = E.objClass))
          · exact h3 (hp ▸ rfl)
        have hkey' : key.1 ∉ rest ∨ key.1 = E.objClass ∨ key.2 ≠ to_ := by
          rcases hkey with h1 | h2 | h3
          · exact Or.inl fun hm => h1 (List.mem_cons_of_mem _ hm)
          · exact Or.inr (Or.inl h2)
          · exact Or.inr (Or.inr h3)
        rw [hunch key hkey', FeatureBroker.provideRaw_ok_find_other hprov hne]
      · intro hb
        exact hwf (FeatureBroker.provideRaw_ok_WF hb hprov)

/-- If any non-`object` class of the list is already registered for the
destination key, the registration loop raises `Error`. -/
theorem provideHier_collision {E : TypeEnv C O} (to_ : K) (f : O → O)
    (l : List C) (b : FeatureBroker (C × K) (O → O))
    (hcol : ∃ T ∈ l, T ≠ E.objClass ∧ b.find (Adaption T to_) ≠ none) :
    ∃ e, provideHier E to_ f b l = .error e := by
  induction l generalizing b with
  | nil =>
    obtain ⟨T, hmem, _⟩ := hcol
    cases hmem
  | cons T rest ih =>
    obtain ⟨T₀, hmem, hne₀, hreg⟩ := hcol
    by_cases hT : T = E.objClass
    · have hmem' : T₀ ∈ rest := by
        rcases List.mem_cons.mp hmem with rfl | h
        · exact absurd hT hne₀
        · exact h
      obtain ⟨e, he⟩ := ih b ⟨T₀, hmem', hne₀, hreg⟩
      refine ⟨e, ?_⟩
      rw [provideHier, List.foldlM_cons, if_pos hT]
      exact he
    · rcases hfind : b.find (Adaption T to_) with _ | entry
      · have hprov : b.provide (Adaption T to_) (.plain f) =
            .ok ⟨b.features ++ [(Adaption T to_, Entry.single (Cb.const f))]⟩ := by
          simpa using FeatureBroker.provideRaw_of_fresh (What.plain f) false hfind
        have hT₀T : T₀ ≠ T := fun h => hreg (h ▸ hfind)
        have hmem' : T₀ ∈ rest := by
          rcases List.mem_cons.mp hmem with rfl | h
          · exact absurd rfl hT₀T
          · exact h
        have hne : (Adaption T₀ to_ : C × K) ≠ Adaption T to_ := by
          intro hp
          exact hT₀T (congrArg Prod.fst hp)
        obtain ⟨e, he⟩ := ih
          ⟨b.features ++ [(Adaption T to_, Entry.single (Cb.const f))]⟩
          ⟨T₀, hmem', hne₀, by
            rw [FeatureBroker.provideRaw_ok_find_other hprov hne]
            exact hreg⟩
        refine ⟨e, ?_⟩
        rw [provideHier, List.foldlM_cons, if_neg hT, hprov]
        exact he
      · cases entry with
        | single cb =>
          refine ⟨.redeclare (Adaption T to_), ?_⟩
          rw [provideHier, List.foldlM_cons, if_neg hT,
            show b.provide (Adaption T to_) (.plain f) =
                .error (.redeclare (Adaption T to_)) from
              FeatureBroker.provideRaw_of_single _ _ hfind]
          rfl
        | seq cur =>
          refine ⟨.redeclareSeqAsNonSeq (Adaption T to_), ?_⟩
          rw [provideHier, List.foldlM_cons, if_neg hT,
            show b.provide (Adaption T to_) (.plain f) =
                .error (.redeclareSeqAsNonSeq (Adaption T to_)) from
              FeatureBroker.provideRaw_of_seq_false _ hfind]
          rfl

/-- `adapts` with one source class is the inner registration loop over
that class's method resolution order. -/
theorem adapts_single_eq (E : TypeEnv C O) (a : Adapter C K O) (S : C)
    (to_ : K) (f : O → O) :
    a.adapts E [S] to_ f =
      (provideHier E to_ f a.features (E.mroList S)).map
        (fun feats => (⟨feats⟩ : Adapter C K O)) := by
  unfold adapts
  simp only [List.foldlM_cons, List.foldlM_nil]
  rcases h : provideHier E to_ f a.features (E.mroList S) with e | feats <;> rfl

end Adapter

/-- Claim C9: `Adapter.adapts(S, to, f)` registers `f` under the key
`(T, to)` for every class `T` in `S`'s method resolution order except
`object` (for an old-style class the order defaults to `[S]`), without
touching any other key; a later `adapts` for the same destination whose
source's order shares any non-`object` class with the registration raises
`Error`; and `Adapter.remove(S, to)` drops only the exact `(S, to)` entry,
leaving the entries of `S`'s ancestors registered. -/
theorem claim_C9_adapts_registers_hierarchy {C K O : Type}
    [DecidableEq C] [DecidableEq K]
    (E : TypeEnv C O) (a : Adapter C K O) (S : C) (to_ : K) (f : O → O)
    (hwf : a.features.WF) (hnodup : (E.mroList S).Nodup)
    (hfresh : ∀ T ∈ E.mroList S, T ≠ E.objClass →
      a.features.find (Adaption T to_) = none)
    (hSmem : S ∈ E.mroList S) (hSobj : S ≠ E.objClass) :
    ∃ a', a.adapts E [S] to_ f = .ok a' ∧
      (∀ T ∈ E.mroList S, T ≠ E.objClass →
        a'.features.find (Adaption T to_) = some (.single (.const f))) ∧
      (∀ key : C × K, (key.1 ∉ E.mroList S ∨ key.1 = E.objClass ∨
          key.2 ≠ to_) →
        a'.features.find key = a.features.find key) ∧
      (∀ (S' : C) (f' : O → O),
        (∃ T ∈ E.mroList S', T ≠ E.objClass ∧ T ∈ E.mroList S) →
        ∃ e, a'.adapts E [S'] to_ f' = .error e) ∧
      (∃ a'', a'.remove S to_ = .ok a'' ∧
        a''.features.find (Adaption S to_) = none ∧
        ∀ key : C × K, key ≠ Adaption S to_ →
          a''.features.find key = a'.features.find key) := by
  obtain ⟨b', hfold, hreg, hunch, hwfb⟩ :=
    Adapter.provideHier_fresh to_ f (E.mroList S) a.features hnodup hfresh
  refine ⟨⟨b'⟩, ?_, hreg, hunch, ?_, ?_⟩
  · rw [Adapter.adapts_single_eq, hfold]
    rfl
  · intro S' f' hshare
    obtain ⟨T, hmem', hTobj, hmemS⟩ := hshare
    obtain ⟨e, he⟩ := Adapter.provideHier_collision to_ f'
      (E.mroList S') b' ⟨T, hmem', hTobj, by
        rw [hreg T hmemS hTobj]
        exact Option.noConfusion⟩
    refine ⟨e, ?_⟩
    rw [Adapter.adapts_single_eq, he]
    rfl
  · have hfindS : b'.find (Adaption S to_) = some (.single (.const f)) :=
      hreg S hSmem hSobj
    have hrem : b'.remove (Adaption S to_) =
        .ok ⟨assocErase b'.features (Adaption S to_)⟩ := by
      rw [FeatureBroker.remove,
        show assocFind b'.features (Adaption S to_) =
          some (.single (.const f)) from hfindS]
    obtain ⟨hself, hother⟩ := FeatureBroker.remove_ok_find (hwfb hwf) hrem
    refine ⟨⟨⟨assocErase b'.features (Adaption S to_)⟩⟩, ?_, hself, hother⟩
    rw [Adapter.remove, hrem]
    rfl

/-- Evaluation of claim C9's theorem: registering an adapter for class 2
(method resolution order `[2, 1, 0]` with `object = 0`) on an empty
registry. -/
theorem claim_C9_witness :
    ∃ a', Adapter.adapts
        (⟨fun c => if c = 2 then some [2, 1, 0] else none, 0, fun _ => 2⟩ :
          TypeEnv Nat Nat)
        (⟨⟨[]⟩⟩ : Adapter Nat Nat Nat) [2] 5 (fun o => o + 1) = .ok a' ∧
      (∀ T ∈ TypeEnv.mroList
          (⟨fun c => if c = 2 then some [2, 1, 0] else none, 0, fun _ => 2⟩ :
            TypeEnv Nat Nat) 2, T ≠ 0 →
        a'.features.find (Adaption T 5) =
          some (.single (.const (fun o => o + 1)))) ∧
      (∀ key : Nat × Nat, (key.1 ∉ TypeEnv.mroList
          (⟨fun c => if c = 2 then some [2, 1, 0] else none, 0, fun _ => 2⟩ :
            TypeEnv Nat Nat) 2 ∨ key.1 = 0 ∨ key.2 ≠ 5) →
        a'.features.find key =
          (⟨⟨[]⟩⟩ : Adapter Nat Nat Nat).features.find key) ∧
      (∀ (S' : Nat) (f' : Nat → Nat),
        (∃ T ∈ TypeEnv.mroList
            (⟨fun c => if c = 2 then some [2, 1, 0] else none, 0, fun _ => 2⟩ :
              TypeEnv Nat Nat) S', T ≠ 0 ∧ T ∈ TypeEnv.mroList
            (⟨fun c => if c = 2 then some [2, 1, 0] else none, 0, fun _ => 2⟩ :
              TypeEnv Nat Nat) 2) →
        ∃ e, a'.adapts
          (⟨fun c => if c = 2 then some [2, 1, 0] else none, 0, fun _ => 2⟩ :
            TypeEnv Nat Nat) [S'] 5 f' = .error e) ∧
      (∃ a'', a'.remove 2 5 = .ok a'' ∧
        a''.features.find (Adaption 2 5) = none ∧
        ∀ key : Nat × Nat, key ≠ Adaption 2 5 →
          a''.features.find key = a'.features.find key) :=
  claim_C9_adapts_registers_hierarchy
    ⟨fun c => if c = 2 then some [2, 1, 0] else none, 0, fun _ => 2⟩
    ⟨⟨[]⟩⟩ 2 5 (fun o => o + 1)
    List.nodup_nil (by decide) (fun _ _ _ => rfl) (by decide) (by decide)

namespace Signal

variable {F A R : Type} [DecidableEq F]

theorem eraseFirst_sublist (l : List F) (x : F) :
    (eraseFirst l x).Sublist l := by
  induction l with
  | nil => simp [eraseFirst]
  | cons g rest ih =>
    by_cases h : g = x
    · simp [eraseFirst, h, List.sublist_cons_self]
    · simpa [eraseFirst, h] using ih.cons₂ g

theorem eraseFirst_eq_filter {l : List F} (hnd : l.Nodup) (x : F) :
    eraseFirst l x = l.filter (fun f => decide (f ≠ x)) := by
  induction l with
  | nil => rfl
  | cons g rest ih =>
    obtain ⟨hg, hrest⟩ := List.nodup_cons.mp hnd
    by_cases h : g = x
    · subst h
      have hall : ∀ f ∈ rest, (fun f => !decide (f = g)) f = true := by
        intro f hf
        have hne : f ≠ g := fun hfx => hg (hfx ▸ hf)
        simp [hne]
      simp [eraseFirst, List.filter_cons, List.filter_eq_self.mpr hall]
    · simp only [eraseFirst, if_neg h]
      rw [ih hrest]
      simp [List.filter_cons, h]

/-- Running a history of connects and disconnects from a state disjoint
from the connected callbacks leaves exactly the callbacks that are never
disconnected, in their original order: the old state first, then the
connections in connection order. -/
theorem runOps_ok_callbacks (ops : List (SOp F)) :
    ∀ (s s' : Signal F), runOps s ops = .ok s' →
    s.callbacks.Nodup → (connectsOf ops).Nodup →
    (∀ f ∈ connectsOf ops, f ∉ s.callbacks) →
    s'.callbacks = (s.callbacks ++ connectsOf ops).filter
      (fun f => decide (f ∉ disconnectsOf ops)) := by
  induction ops with
  | nil =>
    intro s s' hrun _ _ _
    cases hrun
    simp [connectsOf, disconnectsOf]
  | cons op rest ih =>
    intro s s' hrun hnd hconn hfresh
    cases op with
    | connect f =>
      have hf : f ∉ s.callbacks := hfresh f (List.mem_cons_self _ _)
      have hstep : runOps (s.connect f) rest = .ok s' := hrun
      have hnd₂ : (s.connect f).callbacks.Nodup := by
        rw [connect]
        simp only [List.nodup_append, List.nodup_singleton]
        exact ⟨hnd, trivial, by
          intro a ha hb
          simp only [List.mem_singleton] at hb
          exact hf (hb ▸ ha)⟩
      have hconn₂ : (connectsOf rest).Nodup :=
        (List.nodup_cons.mp hconn).2
      have hfresh₂ : ∀ g ∈ connectsOf rest, g ∉ (s.connect f).callbacks := by
        intro g hg
        rw [connect]
        simp only [List.mem_append, List.mem_singleton, not_or]
        exact ⟨hfresh g (List.mem_cons_of_mem _ hg),
          fun hgf => (List.nodup_cons.mp hconn).1 (hgf ▸ hg)⟩
      have := ih (s.connect f) s' hstep hnd₂ hconn₂ hfresh₂
      rw [this, connect]
      simp [disconnectsOf, connectsOf, List.append_assoc]
    | disconnect g =>
      by_cases hg : g ∈ s.callbacks
      · have hd : s.disconnect g = .ok ⟨eraseFirst s.callbacks g⟩ := by
          rw [disconnect, if_pos hg]
        have hstep : runOps (⟨eraseFirst s.callbacks g⟩ : Signal F) rest
            = .ok s' := by
          rw [runOps] at hrun
          rw [hd] at hrun
          exact hrun
        have hsub := eraseFirst_sublist s.callbacks g
        have hnd₂ : (eraseFirst s.callbacks g).Nodup := hnd.sublist hsub
        have hfresh₂ : ∀ f ∈ connectsOf rest,
            f ∉ eraseFirst s.callbacks g := by
          intro f hf hmem
          exact hfresh f hf (hsub.subset hmem)
        have hmain := ih ⟨eraseFirst s.callbacks g⟩ s' hstep hnd₂
          (by simpa [connectsOf] using hconn) hfresh₂
        rw [hmain]
        have hgnotin : g ∉ connectsOf (SOp.disconnect g :: rest) →
            True := fun _ => trivial
        -- rewrite both sides to filters over the same list
        have hcs : ∀ f ∈ connectsOf rest, f ≠ g :=
          fun f hf hfg => hfresh f (by simpa [connectsOf] using hf) (hfg ▸ hg)
        rw [eraseFirst_eq_filter hnd g]
        simp only [List.filter_append, connectsOf, disconnectsOf]
        congr 1
        · rw [List.filter_filter]
          apply List.filter_congr
          intro f _
          simp only [List.mem_cons, not_or, decide_not, ne_eq]
          cases hfd : decide (f ∈ disconnectsOf rest) <;>
            cases hfg : decide (f = g) <;>
              simp_all
        · apply List.filter_congr
          intro f hf
          have : f ≠ g := hcs f hf
          simp [List.mem_cons, this]
      · have hd : s.disconnect g = .error .valueError := by
          rw [disconnect, if_neg hg]
        rw [runOps] at hrun
        rw [hd] at hrun
        cases hrun

end Signal

/-- Claim C7: calling a `Signal` built from the empty signal by a history
of connects and disconnects (each callback connected at most once) invokes
exactly the callbacks that were connected and never disconnected, once
each, in connection order, and returns the list of their results in that
order. -/
theorem claim_C7_signal_call_connected_order {F A R : Type} [DecidableEq F]
    (app : F → A → R) (ops : List (Signal.SOp F)) (s : Signal F) (a : A)
    (hconn : (Signal.connectsOf ops).Nodup)
    (hrun : Signal.runOps ⟨[]⟩ ops = .ok s) :
    Signal.call app s a =
      ((Signal.connectsOf ops).filter
        (fun f => decide (f ∉ Signal.disconnectsOf ops))).map
        (fun f => app f a) := by
  have hcb := Signal.runOps_ok_callbacks ops ⟨[]⟩ s hrun
    List.nodup_nil hconn (by simp)
  rw [Signal.call, hcb]
  simp

/-- Evaluation of claim C7's theorem: connect 1 and 2, disconnect 1 —
only callback 2 runs. -/
theorem claim_C7_witness :
    Signal.call (fun f a => f + a) (⟨[2]⟩ : Signal Nat) 10 =
      ((Signal.connectsOf [Signal.SOp.connect 1, Signal.SOp.connect 2,
          Signal.SOp.disconnect 1]).filter
        (fun f => decide (f ∉ Signal.disconnectsOf
          [Signal.SOp.connect 1, Signal.SOp.connect 2,
            Signal.SOp.disconnect 1]))).map (fun f => f + 10) :=
  claim_C7_signal_call_connected_order (fun f a => f + a)
    [Signal.SOp.connect 1, Signal.SOp.connect 2, Signal.SOp.disconnect 1]
    ⟨[2]⟩ 10 (by decide) rfl

/-- Claim C10: `Callback.emit` invokes only the most recently connected
callback that has not been disconnected and returns its result; with no
callback bound it raises `UnboundCallback` when `must_be_bound` is set
and returns `None` otherwise. -/
theorem claim_C10_callback_emit_last {F A R : Type} [DecidableEq F]
    (app : F → A → R) (ops : List (Signal.SOp F)) (mb : Bool)
    (c : Callback F) (a : A)
    (hconn : (Signal.connectsOf ops).Nodup)
    (hrun : Callback.runOps ⟨[], mb⟩ ops = .ok c) :
    ((Signal.connectsOf ops).filter
        (fun f => decide (f ∉ Signal.disconnectsOf ops)) = [] →
      c.emit app a = if mb then .error .unboundCallback else .ok none) ∧
    (∀ (pre : List F) (f : F),
      (Signal.connectsOf ops).filter
        (fun f' => decide (f' ∉ Signal.disconnectsOf ops)) = pre ++ [f] →
      c.emit app a = .ok (some (app f a))) := by
  obtain ⟨s, hs, hc⟩ : ∃ s, Signal.runOps ⟨[]⟩ ops = .ok s ∧
      c = ⟨s.callbacks, mb⟩ := by
    rw [Callback.runOps] at hrun
    rcases hx : Signal.runOps (⟨[]⟩ : Signal F) ops with e | s
    · rw [hx] at hrun; cases hrun
    · rw [hx] at hrun
      cases hrun
      exact ⟨s, rfl, rfl⟩
  have hcb := Signal.runOps_ok_callbacks ops ⟨[]⟩ s hs
    List.nodup_nil hconn (by simp)
  simp only [List.nil_append] at hcb
  subst hc
  constructor
  · intro hempty
    rw [Callback.emit]
    simp only [hcb, hempty, List.getLast?_nil]
  · intro pre f hlast
    rw [Callback.emit]
    simp only [hcb, hlast, List.getLast?_concat]

/-- Evaluation of claim C10's theorem: with callbacks 1 then 2 connected,
emit calls only 2. -/
theorem claim_C10_witness :
    (⟨[1, 2], true⟩ : Callback Nat).emit (fun f a => f + a) 10 =
      .ok (some 12) :=
  (claim_C10_callback_emit_last (fun f a => f + a)
    [Signal.SOp.connect 1, Signal.SOp.connect 2] true
    ⟨[1, 2], true⟩ 10 (by decide) rfl).2 [1] 2 rfl

/-- Claim C8: for an attribute name the aspect does not itself define,
reading it on the aspect yields the wrapped object's attribute — a plain
value unchanged, a callable as a proxy that invokes the wrapped callable
with the given arguments and returns its result — and a name the wrapped
object also lacks raises `AttributeError`. -/
theorem claim_C8_aspect_attribute_forwarding {N A V : Type}
    (asp : AspectObj N A V) (key : N) (h : asp.defines key = none) :
    (asp.next.attrs key = none →
      asp.getattr key = .error .attributeError) ∧
    (∀ v, asp.next.attrs key = some (.val v) →
      asp.getattr key = .ok (.val v)) ∧
    (∀ g, asp.next.attrs key = some (.fn g) →
      ∃ p, asp.getattr key = .ok (.fn p) ∧ ∀ a, p a = g a) := by
  refine ⟨?_, ?_, ?_⟩
  · intro h2
    rw [AspectObj.getattr, h, h2]
  · intro v h2
    rw [AspectObj.getattr, h, h2]
  · intro g h2
    refine ⟨fun a => callnext g a, ?_, fun a => rfl⟩
    rw [AspectObj.getattr, h, h2]

/-- Evaluation of claim C8's theorem: the aspect defines nothing, the
wrapped object has a plain attribute at name 0, and reading it through
the aspect returns it. -/
theorem claim_C8_witness :
    AspectObj.getattr
      (⟨fun _ => none, ⟨fun n => if n = 0 then some (.val 5) else none⟩⟩ :
        AspectObj Nat Nat Nat) 0 = .ok (.val 5) :=
  (claim_C8_aspect_attribute_forwarding
    (⟨fun _ => none, ⟨fun n => if n = 0 then some (.val 5) else none⟩⟩ :
      AspectObj Nat Nat Nat) 0 rfl).2.1 5 rfl

end Flam
